import Mathlib

/-!
Verification of the vocabulary & sequence encoding pipeline (`batcher.py`):
frequency-based vocabulary construction, the character-level one-hot
encode/decode table, and the lazy auto-restarting streaming data loader.

Python strings are modelled as `List Char`; Python dicts as insertion-ordered
association lists; operations that may raise (`KeyError`, index lookups,
stream exhaustion on an empty corpus) return `Option`.
-/

/-- Python strings are modelled as lists of characters. -/
abbrev Str := List Char

/-- `Batcher.ENCODING_MAX_PASSWORD_LENGTH = 12`. -/
def ENCODING_MAX_PASSWORD_LENGTH : Nat := 12

/-- `Batcher.ENCODING_MAX_SIZE_VOCAB = 80`. -/
def ENCODING_MAX_SIZE_VOCAB : Nat := 80

/-- `Batcher.OOV_CHAR = '？'` (fullwidth question mark, U+FF1F). -/
def OOV_CHAR : Char := '？'

/-- `Batcher.PAD_CHAR = ' '`. -/
def PAD_CHAR : Char := ' '

/-- `discard_password(password)`:
`len(password) > Batcher.ENCODING_MAX_PASSWORD_LENGTH or ' ' in password`. -/
def discard_password (password : Str) : Bool :=
  decide (password.length > ENCODING_MAX_PASSWORD_LENGTH) || password.contains ' '

/-- Sequential `Option`-valued mapping.  The Python loops we model raise out of
the whole computation as soon as one element's lookup raises, discarding any
partial result, which is exactly `none` as soon as one element maps to `none`. -/
def mapOrNone {α β : Type} (g : α → Option β) : List α → Option (List β)
  | [] => some []
  | a :: l =>
    match g a with
    | none => none
    | some b => (mapOrNone g l).map (fun bs => b :: bs)

/-- `CharacterTable`: holds `self.chars`; the two index dicts are derived views
(`CharacterTable.char_indices` / `CharacterTable.indices_char` below). -/
structure CharacterTable where
  chars : Str

/-- `CharacterTable.__init__`: `self.chars = sorted(set(chars))`. -/
def CharacterTable.ofChars (cs : Str) : CharacterTable :=
  ⟨List.insertionSort (· ≤ ·) cs.dedup⟩

/-- `self.char_indices = dict((c, i) for i, c in enumerate(self.chars))`, as a
lookup: `self.chars` is duplicate-free (it comes from `sorted(set(..))`), so a
member character maps to the position of its unique occurrence, and a
non-member raises `KeyError` (`none`). -/
def CharacterTable.char_indices (t : CharacterTable) (c : Char) : Option Nat :=
  if c ∈ t.chars then some (t.chars.indexOf c) else none

/-- `self.indices_char = dict((i, c) for i, c in enumerate(self.chars))`, as a
lookup: index `i` maps to `self.chars[i]`; an out-of-range index raises
`KeyError` (`none`). -/
def CharacterTable.indices_char (t : CharacterTable) (i : Nat) : Option Char :=
  t.chars.get? i

/-- Row `i` of `np.zeros((num_rows, len(self.chars)))` after `x[i, k] = 1`. -/
def oneHot (n k : Nat) : List Nat :=
  (List.range n).map (fun j => if j = k then 1 else 0)

/-- One iteration of the `CharacterTable.encode` loop: `c = C[i]` raises
`IndexError` past the end of `C` (the `except` branch writes the pad row);
an in-vocabulary `c` gives the one-hot row at `char_indices[c]`; an unknown
`c` gives the one-hot row at `char_indices['？']` (raising if `'？'` itself is
not in the table). -/
def CharacterTable.encodeRow (t : CharacterTable) (C : Str) (i : Nat) :
    Option (List Nat) :=
  match C.get? i with
  | some c =>
    match t.char_indices c with
    | some k => some (oneHot t.chars.length k)
    | none => (t.char_indices OOV_CHAR).map (fun k => oneHot t.chars.length k)
  | none => (t.char_indices PAD_CHAR).map (fun k => oneHot t.chars.length k)

/-- `CharacterTable.encode(C, num_rows)`: the `for i in range(num_rows)` loop
over `encodeRow`. -/
def CharacterTable.encode (t : CharacterTable) (C : Str) (num_rows : Nat) :
    Option (List (List Nat)) :=
  mapOrNone (t.encodeRow C) (List.range num_rows)

/-- Tail of `np.argmax` over one row: scan `l` keeping the best value `bv`,
its index `best`, and the current index `i`; a later value replaces the best
only when strictly greater (numpy returns the first maximal index). -/
def argmaxFrom : List Nat → Nat → Nat → Nat → Nat
  | [], _, best, _ => best
  | v :: l, bv, best, i =>
    if bv < v then argmaxFrom l v i (i + 1) else argmaxFrom l bv best (i + 1)

/-- `np.argmax` over one row: index of the first maximal entry. -/
def argmax : List Nat → Nat
  | [] => 0
  | v :: l => argmaxFrom l v 0 1

/-- `CharacterTable.decode(x, calc_argmax=True)`: collapse each row to its
argmax index, then map each index through `indices_char` and concatenate. -/
def CharacterTable.decode (t : CharacterTable) (x : List (List Nat)) :
    Option Str :=
  mapOrNone t.indices_char (x.map argmax)

/-- `CharacterTable.decode(x, calc_argmax=False)`: `x` is already an index
sequence, mapped through `indices_char` directly. -/
def CharacterTable.decode_indices (t : CharacterTable) (x : List Nat) :
    Option Str :=
  mapOrNone t.indices_char x

/-- Trimming trailing pad characters from a decoded string. -/
def rstripPad (s : Str) : Str :=
  (s.reverse.dropWhile (fun c => c == PAD_CHAR)).reverse

/-- A corpus record: one line of the tab-separated training file, already split
into its three fields (identifier, sequence field x, sequence field y). -/
structure Record where
  ident : Str
  x : Str
  y : Str

/-- A `Counter` is an insertion-ordered association list from keys to counts. -/
abbrev Counter := List (Char × Nat)

/-- `Counter` update by one character: an existing key keeps its position and
gains one count; a fresh key is appended.  Folding this over `list(y + x)`
gives the same key order and counts as `vocabulary += Counter(list(y + x))`
(existing keys keep their order, new keys are appended in first-occurrence
order). -/
def counterAdd (m : Counter) (c : Char) : Counter :=
  if m.any (fun p => p.1 = c) then
    m.map (fun p => if p.1 = c then (p.1, p.2 + 1) else p)
  else
    m ++ [(c, 1)]

/-- `Counter.most_common(n)`: the items sorted by count descending — a stable
sort, so ties keep the counter's insertion order — truncated to `n`.
`insertionSort` with `b.2 ≤ a.2` is stable in exactly the Python sense. -/
def mostCommon (m : Counter) (n : Nat) : Counter :=
  (List.insertionSort (fun a b => b.2 ≤ a.2) m).take n

/-- The frequency counter accumulated by `build_vocabulary`'s read loop:
pairs with either field discarded are skipped; surviving pairs contribute
`Counter(list(y + x))`. -/
def vocabularyCounter (corpus : List Record) : Counter :=
  corpus.foldl
    (fun acc r =>
      if discard_password r.y || discard_password r.x then acc
      else (r.y ++ r.x).foldl counterAdd acc)
    []

/-- The selected characters of `build_vocabulary`:
`dict(vocabulary.most_common(ENCODING_MAX_SIZE_VOCAB)).keys()` — the counter's
keys are already distinct, so this is just the keys of the truncated list. -/
def selectedChars (corpus : List Record) : List Char :=
  (mostCommon (vocabularyCounter corpus) ENCODING_MAX_SIZE_VOCAB).map Prod.fst

/-- `build_vocabulary(training_filename)`: sort the selected characters into
ascending order, then append the OOV sentinel and the pad sentinel.  The
line-reading and `s.strip().split('\t')` of the source are modelled by taking
the corpus as a list of already-split three-field records. -/
def build_vocabulary (corpus : List Record) : List Char :=
  (List.insertionSort (· ≤ ·) (selectedChars corpus)) ++ [OOV_CHAR, PAD_CHAR]

/-- Python `dict` insertion: an existing key keeps its position and is
overwritten; a fresh key is appended. -/
def dictInsert {κ β : Type} [DecidableEq κ] (m : List (κ × β)) (k : κ) (v : β) :
    List (κ × β) :=
  if m.any (fun p => p.1 = k) then
    m.map (fun p => if p.1 = k then (k, v) else p)
  else
    m ++ [(k, v)]

/-- `dict(pairs)`: insert the pairs left to right into an empty dict. -/
def dictOfPairs {κ β : Type} [DecidableEq κ] (ps : List (κ × β)) :
    List (κ × β) :=
  ps.foldl (fun m p => dictInsert m p.1 p.2) []

/-- Python `dict` lookup. -/
def dictLookup {κ β : Type} [DecidableEq κ] (m : List (κ × β)) (k : κ) :
    Option β :=
  (m.find? (fun p => p.1 = k)).map Prod.snd

/-- `Batcher.write`'s `token_indices = dict((c, i) for (c, i) in
enumerate(vocabulary_sorted_list))`: `enumerate` yields `(index, char)` pairs,
so — despite its name — this dict maps each index to its character. -/
def token_indices (v : List Char) : List (Nat × Char) :=
  dictOfPairs v.enum

/-- `Batcher.write`'s `indices_token = dict((i, c) for (c, i) in
enumerate(vocabulary_sorted_list))`: the destructuring swaps the pair, so —
despite its name — this dict maps each character to its index; a duplicated
character collapses onto one key. -/
def indices_token (v : List Char) : List (Char × Nat) :=
  dictOfPairs (v.enum.map (fun p => (p.2, p.1)))

/-- The `assert len(token_indices) == len(indices_token)` in `Batcher.write`. -/
def writeAssertHolds (v : List Char) : Prop :=
  (token_indices v).length = (indices_token v).length

/-- `Batcher.get_chars_and_ctable`:
`chars = ''.join(list(self.get_token_indices().values()))` — the values of the
persisted index→character dict, in insertion order — and
`ctable = CharacterTable(chars)`. -/
def get_chars_and_ctable (v : List Char) : Str × CharacterTable :=
  let chars := (token_indices v).map Prod.snd
  (chars, CharacterTable.ofChars chars)

/-- A raw training pair, as produced by the Corpus Reader. -/
abbrev Pair := Str × Str

/-- Modelled from the spec: `stream_from_file` (in `utils`, which is not among
the sources here) is the Corpus Reader, an external collaborator treated as a
black-box producer of `(x, y)` string pairs: given the corpus's records (an
identifier field plus the two sequence fields per line), it yields the pair of
sequence fields of each record, in file order, and is exhausted afterwards. -/
def stream_from_file (corpus : List Record) : List Pair :=
  corpus.map (fun r => (r.x, r.y))

/-- `LazyDataLoader`: the training file (as the list of pairs its stream
yields) plus the private stream handle, modelled as the suffix of pairs not
yet yielded by the current pass. -/
structure LazyDataLoader where
  corpus : List Pair
  stream : List Pair

/-- `LazyDataLoader.__init__` / `init_stream`: a fresh pass over the corpus. -/
def LazyDataLoader.ofCorpus (corpus : List Pair) : LazyDataLoader :=
  ⟨corpus, corpus⟩

/-- `LazyDataLoader.next()`: yield from the stream; on exhaustion re-open a
fresh pass and retry once.  On an empty corpus the retry exhausts again and
the Python recursion never produces a value (`none`). -/
def LazyDataLoader.next : LazyDataLoader → Option (Pair × LazyDataLoader)
  | ⟨corpus, p :: rest⟩ => some (p, ⟨corpus, rest⟩)
  | ⟨corpus, []⟩ =>
    match corpus with
    | q :: qrest => some (q, ⟨corpus, qrest⟩)
    | [] => none

/-- The result of the `k+1`-st call to `next()` starting from state `l`
(`driveNext l 0` is the first call). -/
def LazyDataLoader.driveNext (l : LazyDataLoader) : Nat → Option (Pair × LazyDataLoader)
  | 0 => l.next
  | k + 1 =>
    match l.next with
    | some pl => pl.2.driveNext k
    | none => none

/-- `LazyDataLoader.statistics()`: re-initialize the stream, consume one full
pass accumulating the two running maxima and the line count, and return them;
the pass leaves the stream exhausted. -/
def LazyDataLoader.statistics (l : LazyDataLoader) :
    (Nat × Nat × Nat) × LazyDataLoader :=
  let res := l.corpus.foldl
    (fun (acc : Nat × Nat × Nat) p =>
      (max acc.1 p.1.length, max acc.2.1 p.2.length, acc.2.2 + 1))
    (0, 0, 0)
  (res, ⟨l.corpus, []⟩)

/-- The spec's toy corpus: the 3 lines `id\tabc\txyz`, `id\tab\txy`,
`id\ta\tx`, already split at the tabs. -/
def toyCorpus : List Record :=
  [⟨"id".data, "abc".data, "xyz".data⟩,
   ⟨"id".data, "ab".data, "xy".data⟩,
   ⟨"id".data, "a".data, "x".data⟩]

/-! ### Basic lemmas about the `Option`-valued map -/

theorem mapOrNone_eq_some {α β : Type} (g : α → Option β) (f : α → β) :
    ∀ l : List α, (∀ a ∈ l, g a = some (f a)) → mapOrNone g l = some (l.map f)
  | [], _ => rfl
  | a :: l, h => by
    have ha := h a (List.mem_cons_self a l)
    simp only [mapOrNone, ha, List.map_cons]
    rw [mapOrNone_eq_some g f l (fun b hb => h b (List.mem_cons_of_mem a hb))]
    rfl

theorem mapOrNone_eq_none_iff {α β : Type} (g : α → Option β) :
    ∀ l : List α, (mapOrNone g l = none ↔ ∃ a ∈ l, g a = none)
  | [] => by simp [mapOrNone]
  | a :: l => by
    cases ha : g a with
    | none => simp [mapOrNone, ha]
    | some b =>
      simp only [mapOrNone, ha, List.mem_cons]
      rw [show (∃ x, (x = a ∨ x ∈ l) ∧ g x = none) ↔ ∃ x ∈ l, g x = none by
        constructor
        · rintro ⟨x, hx | hx, hgx⟩
          · exact absurd hgx (by simp [hx, ha])
          · exact ⟨x, hx, hgx⟩
        · rintro ⟨x, hx, hgx⟩; exact ⟨x, Or.inr hx, hgx⟩]
      rw [← mapOrNone_eq_none_iff g l]
      cases mapOrNone g l <;> simp

theorem mapOrNone_congr {α β : Type} (g g' : α → Option β) :
    ∀ l : List α, (∀ a ∈ l, g a = g' a) → mapOrNone g l = mapOrNone g' l
  | [], _ => rfl
  | a :: l, h => by
    simp only [mapOrNone, h a (List.mem_cons_self a l),
      mapOrNone_congr g g' l (fun b hb => h b (List.mem_cons_of_mem a hb))]

/-! ### Basic lemmas about `CharacterTable` -/

theorem CharacterTable.chars_ofChars_nodup (cs : Str) :
    (CharacterTable.ofChars cs).chars.Nodup :=
  ((List.perm_insertionSort _ _).nodup_iff).2 cs.nodup_dedup

theorem CharacterTable.chars_ofChars_sorted (cs : Str) :
    List.Sorted (· ≤ ·) (CharacterTable.ofChars cs).chars :=
  List.sorted_insertionSort _ _

theorem CharacterTable.mem_chars_ofChars {c : Char} {cs : Str} :
    c ∈ (CharacterTable.ofChars cs).chars ↔ c ∈ cs :=
  ((List.perm_insertionSort _ _).mem_iff).trans (List.mem_dedup)

theorem CharacterTable.char_indices_of_mem {t : CharacterTable} {c : Char}
    (h : c ∈ t.chars) : t.char_indices c = some (t.chars.indexOf c) :=
  if_pos h

theorem CharacterTable.char_indices_of_not_mem {t : CharacterTable} {c : Char}
    (h : c ∉ t.chars) : t.char_indices c = none :=
  if_neg h

theorem CharacterTable.indices_char_indexOf {t : CharacterTable} {c : Char}
    (h : c ∈ t.chars) : t.indices_char (t.chars.indexOf c) = some c :=
  List.indexOf_get? h

/-- C9: `decode(x, calc_argmax=False)` fails with a lookup error iff some
index in `x` is outside the table's index range; when every index is in
range it returns the concatenation of the corresponding characters in
order. -/
theorem decode_indices_spec (t : CharacterTable) (x : List Nat) :
    (t.decode_indices x = none ↔ ∃ i ∈ x, t.chars.length ≤ i) ∧
    ((∀ i ∈ x, i < t.chars.length) →
      t.decode_indices x = some (x.map (fun i => t.chars.getD i PAD_CHAR))) := by
  constructor
  · rw [CharacterTable.decode_indices, mapOrNone_eq_none_iff]
    constructor
    · rintro ⟨i, hi, hnone⟩
      exact ⟨i, hi, List.get?_eq_none.1 hnone⟩
    · rintro ⟨i, hi, hlen⟩
      exact ⟨i, hi, List.get?_eq_none.2 hlen⟩
  · intro h
    rw [CharacterTable.decode_indices]
    refine mapOrNone_eq_some _ _ _ (fun i hi => ?_)
    have hlt := h i hi
    rw [CharacterTable.indices_char, List.getD_eq_get _ _ hlt,
      List.get?_eq_get hlt]

theorem decode_indices_spec_witness :
    (∀ i ∈ [0, 2], i < (CharacterTable.ofChars "ab？ ".data).chars.length) ∧
    (CharacterTable.ofChars "ab？ ".data).decode_indices [0, 2] =
      some ([0, 2].map
        (fun i => (CharacterTable.ofChars "ab？ ".data).chars.getD i PAD_CHAR)) :=
  ⟨by decide, (decode_indices_spec (CharacterTable.ofChars "ab？ ".data) [0, 2]).2 (by decide)⟩

/-- C8: `discard_password` returns true iff the password is longer than 12
characters or contains a space, checked also on the spec's three examples. -/
theorem discard_password_spec :
    (∀ p : Str, discard_password p = true ↔ (12 < p.length ∨ ' ' ∈ p)) ∧
    discard_password "abcdefghijklm".data = true ∧
    discard_password "ab cd".data = true ∧
    discard_password "abcd1234".data = false := by
  refine ⟨fun p => ?_, by decide, by decide, by decide⟩
  simp [discard_password, ENCODING_MAX_PASSWORD_LENGTH, List.contains]

theorem discard_password_spec_witness :
    discard_password "ab cd".data = true :=
  discard_password_spec.2.2.1

/-! ### One-hot rows and `argmax` -/

theorem oneHot_zero (n : Nat) : oneHot (n + 1) 0 = 1 :: List.replicate n 0 := by
  have h : ((fun j => if j = 0 then (1 : Nat) else 0) ∘ Nat.succ) = fun _ => (0 : Nat) := by
    funext j
    simp [Function.comp]
  simp only [oneHot, List.range_succ_eq_map, List.map_cons, List.map_map, h,
    List.map_const', List.length_range]
  simp

theorem oneHot_succ (n k : Nat) : oneHot (n + 1) (k + 1) = 0 :: oneHot n k := by
  have h : ((fun j => if j = k + 1 then (1 : Nat) else 0) ∘ Nat.succ) =
      fun j => if j = k then (1 : Nat) else 0 := by
    funext j
    simp [Function.comp]
  simp only [oneHot, List.range_succ_eq_map, List.map_cons, List.map_map, h]
  simp

theorem length_oneHot (n k : Nat) : (oneHot n k).length = n := by
  simp [oneHot]

theorem count_oneHot : ∀ n k : Nat, k < n → (oneHot n k).count 1 = 1
  | 0, _, h => absurd h (Nat.not_lt_zero _)
  | n + 1, 0, _ => by
    rw [oneHot_zero, List.count_cons_self, List.count_replicate]
    simp
  | n + 1, k + 1, h => by
    rw [oneHot_succ, List.count_cons_of_ne (by decide),
      count_oneHot n k (Nat.lt_of_succ_lt_succ h)]

theorem argmaxFrom_of_le :
    ∀ (l : List Nat) (bv best i : Nat), (∀ v ∈ l, v ≤ bv) →
      argmaxFrom l bv best i = best
  | [], _, _, _, _ => rfl
  | v :: l, bv, best, i, h => by
    have hv : ¬ bv < v := Nat.not_lt.2 (h v (List.mem_cons_self v l))
    rw [argmaxFrom, if_neg hv,
      argmaxFrom_of_le l bv best (i + 1) (fun w hw => h w (List.mem_cons_of_mem v hw))]

theorem argmaxFrom_oneHot :
    ∀ (k n best i : Nat), k < n → argmaxFrom (oneHot n k) 0 best i = i + k
  | 0, 0, _, _, h => absurd h (Nat.not_lt_zero _)
  | 0, n + 1, best, i, _ => by
    rw [oneHot_zero, argmaxFrom, if_pos Nat.zero_lt_one,
      argmaxFrom_of_le _ _ _ _ (fun v hv => by
        rw [List.eq_of_mem_replicate hv]
        exact Nat.zero_le 1)]
    omega
  | k + 1, 0, _, _, h => absurd h (Nat.not_lt_zero _)
  | k + 1, n + 1, best, i, h => by
    rw [oneHot_succ, argmaxFrom, if_neg (Nat.lt_irrefl 0),
      argmaxFrom_oneHot k n best (i + 1) (Nat.lt_of_succ_lt_succ h)]
    omega

theorem argmax_oneHot : ∀ n k : Nat, k < n → argmax (oneHot n k) = k
  | 0, _, h => absurd h (Nat.not_lt_zero _)
  | n + 1, 0, _ => by
    rw [oneHot_zero, argmax,
      argmaxFrom_of_le _ _ _ _ (fun v hv => by
        rw [List.eq_of_mem_replicate hv]
        exact Nat.zero_le 1)]
  | n + 1, k + 1, h => by
    rw [oneHot_succ, argmax, argmaxFrom_oneHot k n 0 1 (Nat.lt_of_succ_lt_succ h)]
    omega

/-! ### The `encode` loop, row by row -/

theorem CharacterTable.encodeRow_of_mem {t : CharacterTable} {C : Str} {i : Nat}
    (hi : i < C.length) (hc : C.get ⟨i, hi⟩ ∈ t.chars) :
    t.encodeRow C i =
      some (oneHot t.chars.length (t.chars.indexOf (C.get ⟨i, hi⟩))) := by
  simp only [CharacterTable.encodeRow, List.get?_eq_get hi,
    CharacterTable.char_indices_of_mem hc]

theorem CharacterTable.encodeRow_oov {t : CharacterTable} {C : Str} {i : Nat}
    (hi : i < C.length) (hc : C.get ⟨i, hi⟩ ∉ t.chars)
    (hoov : OOV_CHAR ∈ t.chars) :
    t.encodeRow C i = some (oneHot t.chars.length (t.chars.indexOf OOV_CHAR)) := by
  simp only [CharacterTable.encodeRow, List.get?_eq_get hi,
    CharacterTable.char_indices_of_not_mem hc,
    CharacterTable.char_indices_of_mem hoov, Option.map_some']

theorem CharacterTable.encodeRow_oov_missing {t : CharacterTable} {C : Str}
    {i : Nat} (hi : i < C.length) (hc : C.get ⟨i, hi⟩ ∉ t.chars)
    (hoov : OOV_CHAR ∉ t.chars) : t.encodeRow C i = none := by
  simp only [CharacterTable.encodeRow, List.get?_eq_get hi,
    CharacterTable.char_indices_of_not_mem hc,
    CharacterTable.char_indices_of_not_mem hoov, Option.map_none']

theorem CharacterTable.encodeRow_pad {t : CharacterTable} {C : Str} {i : Nat}
    (hi : C.length ≤ i) (hpad : PAD_CHAR ∈ t.chars) :
    t.encodeRow C i = some (oneHot t.chars.length (t.chars.indexOf PAD_CHAR)) := by
  simp only [CharacterTable.encodeRow, List.get?_eq_none.2 hi,
    CharacterTable.char_indices_of_mem hpad, Option.map_some']

theorem CharacterTable.encodeRow_pad_missing {t : CharacterTable} {C : Str}
    {i : Nat} (hi : C.length ≤ i) (hpad : PAD_CHAR ∉ t.chars) :
    t.encodeRow C i = none := by
  simp only [CharacterTable.encodeRow, List.get?_eq_none.2 hi,
    CharacterTable.char_indices_of_not_mem hpad, Option.map_none']

/-- The index selected for row `i` of `encode C`: the character's own index,
the OOV index for an unknown character, the pad index past the end of `C`. -/
theorem CharacterTable.encode_eq_some {t : CharacterTable} (C : Str)
    (num_rows : Nat) (hoov : OOV_CHAR ∈ t.chars) (hpad : PAD_CHAR ∈ t.chars) :
    t.encode C num_rows = some ((List.range num_rows).map (fun i =>
      oneHot t.chars.length
        (if hi : i < C.length then
          (if C.get ⟨i, hi⟩ ∈ t.chars then t.chars.indexOf (C.get ⟨i, hi⟩)
           else t.chars.indexOf OOV_CHAR)
         else t.chars.indexOf PAD_CHAR))) := by
  rw [CharacterTable.encode]
  refine mapOrNone_eq_some _ _ _ (fun i _ => ?_)
  by_cases hi : i < C.length
  · by_cases hc : C.get ⟨i, hi⟩ ∈ t.chars
    · rw [CharacterTable.encodeRow_of_mem hi hc]
      simp only [dif_pos hi, if_pos hc]
    · rw [CharacterTable.encodeRow_oov hi hc hoov]
      simp only [dif_pos hi, if_neg hc]
  · rw [CharacterTable.encodeRow_pad (Nat.le_of_not_lt hi) hpad]
    simp only [dif_neg hi]

/-- The row index selected by `encode` is always in range when both sentinels
are in the table. -/
theorem CharacterTable.encode_row_index_lt {t : CharacterTable} (C : Str)
    (i : Nat) (hoov : OOV_CHAR ∈ t.chars) (hpad : PAD_CHAR ∈ t.chars) :
    (if hi : i < C.length then
      (if C.get ⟨i, hi⟩ ∈ t.chars then t.chars.indexOf (C.get ⟨i, hi⟩)
       else t.chars.indexOf OOV_CHAR)
     else t.chars.indexOf PAD_CHAR) < t.chars.length := by
  by_cases hi : i < C.length
  · by_cases hc : C.get ⟨i, hi⟩ ∈ t.chars
    · rw [dif_pos hi, if_pos hc]
      exact List.indexOf_lt_length.2 hc
    · rw [dif_pos hi, if_neg hc]
      exact List.indexOf_lt_length.2 hoov
  · rw [dif_neg hi]
    exact List.indexOf_lt_length.2 hpad

/-- C1: for a table built from a character collection containing the OOV and
pad sentinels, `encode(text, num_rows)` succeeds and returns a
`num_rows × |chars|` matrix whose row `i` is one-hot at `text[i]`'s index when
`i < len(text)` and `text[i]` is known, at the OOV index when `text[i]` is
unknown, and at the pad index when `i ≥ len(text)`; every row holds exactly
one `1`, and characters of `text` at positions `≥ num_rows` never influence
the result. -/
theorem encode_with_sentinels_spec (cs text : Str) (num_rows : Nat)
    (hoov : OOV_CHAR ∈ cs) (hpad : PAD_CHAR ∈ cs) :
    ∃ M : List (List Nat),
      (CharacterTable.ofChars cs).encode text num_rows = some M ∧
      M.length = num_rows ∧
      (∀ row ∈ M,
        row.length = (CharacterTable.ofChars cs).chars.length ∧
        row.count 1 = 1) ∧
      (∀ i, i < num_rows →
        M.get? i = some (oneHot (CharacterTable.ofChars cs).chars.length
          (if hi : i < text.length then
            (if text.get ⟨i, hi⟩ ∈ (CharacterTable.ofChars cs).chars then
              (CharacterTable.ofChars cs).chars.indexOf (text.get ⟨i, hi⟩)
             else (CharacterTable.ofChars cs).chars.indexOf OOV_CHAR)
           else (CharacterTable.ofChars cs).chars.indexOf PAD_CHAR))) ∧
      (CharacterTable.ofChars cs).encode (text.take num_rows) num_rows =
        (CharacterTable.ofChars cs).encode text num_rows := by
  have hoov' : OOV_CHAR ∈ (CharacterTable.ofChars cs).chars :=
    CharacterTable.mem_chars_ofChars.2 hoov
  have hpad' : PAD_CHAR ∈ (CharacterTable.ofChars cs).chars :=
    CharacterTable.mem_chars_ofChars.2 hpad
  refine ⟨_, CharacterTable.encode_eq_some text num_rows hoov' hpad', ?_, ?_, ?_, ?_⟩
  · simp
  · intro row hrow
    obtain ⟨i, -, rfl⟩ := List.mem_map.1 hrow
    exact ⟨length_oneHot _ _,
      count_oneHot _ _ (CharacterTable.encode_row_index_lt text i hoov' hpad')⟩
  · intro i hlt
    rw [List.get?_map, List.get?_range hlt, Option.map_some']
  · rw [CharacterTable.encode, CharacterTable.encode]
    refine mapOrNone_congr _ _ _ (fun i hi => ?_)
    have hlt := List.mem_range.1 hi
    simp only [CharacterTable.encodeRow, List.get?_take hlt]

theorem encode_with_sentinels_spec_witness :
    OOV_CHAR ∈ "ab？ ".data ∧ PAD_CHAR ∈ "ab？ ".data ∧
    ∃ M, (CharacterTable.ofChars "ab？ ".data).encode "zb".data 3 = some M ∧
      M.length = 3 := by
  refine ⟨by decide, by decide, ?_⟩
  obtain ⟨M, h1, h2, -, -, -⟩ :=
    encode_with_sentinels_spec "ab？ ".data "zb".data 3 (by decide) (by decide)
  exact ⟨M, h1, h2⟩

/-- C10: a table missing a sentinel makes `encode` partial: without the OOV
character, `encode` raises a lookup error whenever some `text[i]` with
`i < num_rows` is unknown to the table; without the pad character, it raises
whenever `len(text) < num_rows`. -/
theorem encode_missing_sentinel_fails (cs text : Str) (num_rows : Nat) :
    (OOV_CHAR ∉ cs →
      ∀ i, i < num_rows → ∀ hi : i < text.length, text.get ⟨i, hi⟩ ∉ cs →
        (CharacterTable.ofChars cs).encode text num_rows = none) ∧
    (PAD_CHAR ∉ cs → text.length < num_rows →
      (CharacterTable.ofChars cs).encode text num_rows = none) := by
  constructor
  · intro hoov i hlt hi hc
    rw [CharacterTable.encode]
    refine (mapOrNone_eq_none_iff _ _).2 ⟨i, List.mem_range.2 hlt, ?_⟩
    exact CharacterTable.encodeRow_oov_missing hi
      (fun h => hc (CharacterTable.mem_chars_ofChars.1 h))
      (fun h => hoov (CharacterTable.mem_chars_ofChars.1 h))
  · intro hpad hlen
    rw [CharacterTable.encode]
    refine (mapOrNone_eq_none_iff _ _).2 ⟨text.length, List.mem_range.2 hlen, ?_⟩
    exact CharacterTable.encodeRow_pad_missing (Nat.le_refl _)
      (fun h => hpad (CharacterTable.mem_chars_ofChars.1 h))

theorem encode_missing_sentinel_fails_witness :
    (OOV_CHAR ∉ "ab".data ∧
      (CharacterTable.ofChars "ab".data).encode "zb".data 2 = none) ∧
    (PAD_CHAR ∉ "ab".data ∧
      (CharacterTable.ofChars "ab".data).encode "a".data 2 = none) :=
  ⟨⟨by decide,
    (encode_missing_sentinel_fails "ab".data "zb".data 2).1 (by decide) 0
      (by decide) (by decide) (by decide)⟩,
   ⟨by decide,
    (encode_missing_sentinel_fails "ab".data "a".data 2).2 (by decide) (by decide)⟩⟩

/-! ### Round-tripping `encode` then `decode` -/

theorem mapOrNone_map {α β γ : Type} (g : β → Option γ) (f : α → β) :
    ∀ l : List α, mapOrNone g (l.map f) = mapOrNone (fun a => g (f a)) l
  | [] => rfl
  | a :: l => by
    simp only [List.map_cons, mapOrNone, mapOrNone_map g f l]

theorem map_range_getD :
    ∀ (text : Str) (num_rows : Nat), text.length ≤ num_rows →
      (List.range num_rows).map (fun i => text.getD i PAD_CHAR) =
        text ++ List.replicate (num_rows - text.length) PAD_CHAR
  | [], num_rows, _ => by
    have h : (fun i => List.getD ([] : Str) i PAD_CHAR) = fun _ => PAD_CHAR := by
      funext i
      simp [List.getD_eq_get?]
    simp only [List.nil_append, List.length_nil, Nat.sub_zero, h,
      List.map_const', List.length_range]
  | c :: text, 0, h => absurd h (by simp)
  | c :: text, num_rows + 1, h => by
    rw [List.range_succ_eq_map, List.map_cons, List.map_map]
    have h2 : ((fun i => List.getD (c :: text) i PAD_CHAR) ∘ Nat.succ) =
        fun i => List.getD text i PAD_CHAR := by
      funext i
      simp [Function.comp]
    rw [h2, map_range_getD text num_rows (Nat.le_of_succ_le_succ h)]
    simp [Nat.succ_sub_succ]

theorem dropWhile_pad_replicate_append :
    ∀ (m : Nat) (l : Str),
      (List.replicate m PAD_CHAR ++ l).dropWhile (fun c => c == PAD_CHAR) =
        l.dropWhile (fun c => c == PAD_CHAR)
  | 0, _ => rfl
  | m + 1, l => by
    rw [List.replicate_succ, List.cons_append,
      List.dropWhile_cons_of_pos (by decide), dropWhile_pad_replicate_append m l]

theorem rstripPad_append_pad (s : Str) (m : Nat) :
    rstripPad (s ++ List.replicate m PAD_CHAR) = rstripPad s := by
  rw [rstripPad, rstripPad, List.reverse_append, List.reverse_replicate,
    dropWhile_pad_replicate_append]

theorem rstripPad_eq_self {s : Str} (h : s.getLast? ≠ some PAD_CHAR) :
    rstripPad s = s := by
  cases hr : s.reverse with
  | nil =>
    have hs : s = [] := by simpa using congrArg List.reverse hr
    subst hs
    rfl
  | cons a tl =>
    have ha : (a == PAD_CHAR) = false := by
      rw [beq_eq_false_iff_ne]
      intro he
      exact h (by rw [← List.head?_reverse, hr, List.head?_cons, he])
    rw [rstripPad, hr, List.dropWhile_cons_of_neg (by simp [ha]), ← hr,
      List.reverse_reverse]

/-- C2 is false as stated: with the table built from `"ab？ "` (containing
both sentinels), the one-character string `" "` has length ≤ num_rows and
only in-vocabulary characters, yet the round trip trimmed of trailing pad
characters yields `""`, not `" "`. -/
theorem roundtrip_trailing_pad_cex :
    OOV_CHAR ∈ "ab？ ".data ∧ PAD_CHAR ∈ "ab？ ".data ∧
    (∀ c ∈ ([' '] : Str), c ∈ (CharacterTable.ofChars "ab？ ".data).chars) ∧
    ([' '] : Str).length ≤ 1 ∧
    (((CharacterTable.ofChars "ab？ ".data).encode [' '] 1).bind
      (fun M => (CharacterTable.ofChars "ab？ ".data).decode M)).map rstripPad =
        some [] ∧
    ([] : Str) ≠ [' '] := by decide

/-- C2 (amended): for a table built from a collection containing both
sentinels, and a string `s` of length ≤ num_rows all of whose characters are
in the table **and which does not end with the pad character**,
`decode(encode(s, num_rows))` trimmed of trailing pad characters equals `s`
(a string with trailing pads only round-trips up to that trimming). -/
theorem decode_encode_roundtrip (cs s : Str) (num_rows : Nat)
    (hoov : OOV_CHAR ∈ cs) (hpad : PAD_CHAR ∈ cs)
    (hs : ∀ c ∈ s, c ∈ cs) (hlen : s.length ≤ num_rows)
    (hlast : s.getLast? ≠ some PAD_CHAR) :
    ∃ M r, (CharacterTable.ofChars cs).encode s num_rows = some M ∧
      (CharacterTable.ofChars cs).decode M = some r ∧
      rstripPad r = s := by
  have hoov' : OOV_CHAR ∈ (CharacterTable.ofChars cs).chars :=
    CharacterTable.mem_chars_ofChars.2 hoov
  have hpad' : PAD_CHAR ∈ (CharacterTable.ofChars cs).chars :=
    CharacterTable.mem_chars_ofChars.2 hpad
  have hs' : ∀ c ∈ s, c ∈ (CharacterTable.ofChars cs).chars :=
    fun c hc => CharacterTable.mem_chars_ofChars.2 (hs c hc)
  refine ⟨_, s ++ List.replicate (num_rows - s.length) PAD_CHAR,
    CharacterTable.encode_eq_some s num_rows hoov' hpad', ?_, ?_⟩
  · rw [CharacterTable.decode, List.map_map, mapOrNone_map,
      ← map_range_getD s num_rows hlen]
    refine mapOrNone_eq_some _ _ _ (fun i _ => ?_)
    simp only [Function.comp]
    rw [argmax_oneHot _ _ (CharacterTable.encode_row_index_lt s i hoov' hpad')]
    by_cases hilen : i < s.length
    · have hc : s.get ⟨i, hilen⟩ ∈ (CharacterTable.ofChars cs).chars :=
        hs' _ (s.get_mem i hilen)
      rw [dif_pos hilen, if_pos hc, CharacterTable.indices_char_indexOf hc,
        List.getD_eq_get?, List.get?_eq_get hilen]
      rfl
    · rw [dif_neg hilen, CharacterTable.indices_char_indexOf hpad',
        List.getD_eq_get?, List.get?_eq_none.2 (Nat.le_of_not_lt hilen)]
      rfl
  · rw [rstripPad_append_pad, rstripPad_eq_self hlast]

theorem decode_encode_roundtrip_witness :
    (OOV_CHAR ∈ "ab？ ".data ∧ PAD_CHAR ∈ "ab？ ".data ∧
      (∀ c ∈ "ba".data, c ∈ "ab？ ".data) ∧ "ba".data.length ≤ 3 ∧
      "ba".data.getLast? ≠ some PAD_CHAR) ∧
    ∃ M r, (CharacterTable.ofChars "ab？ ".data).encode "ba".data 3 = some M ∧
      (CharacterTable.ofChars "ab？ ".data).decode M = some r ∧
      rstripPad r = "ba".data :=
  ⟨⟨by decide, by decide, by decide, by decide, by decide⟩,
   decode_encode_roundtrip "ab？ ".data "ba".data 3 (by decide) (by decide)
     (by decide) (by decide) (by decide)⟩

/-! ### Vocabulary shape, statistics, and the lazy loader -/

/-- C3: the persisted vocabulary list has length at most
`ENCODING_MAX_SIZE_VOCAB + 2` (82), ends with the OOV character followed by
the pad character, and its prefix before the sentinels is the selected
top-frequency characters in ascending lexicographic order. -/
theorem build_vocabulary_shape (corpus : List Record) :
    ∃ pre : List Char,
      build_vocabulary corpus = pre ++ [OOV_CHAR, PAD_CHAR] ∧
      pre.length ≤ ENCODING_MAX_SIZE_VOCAB ∧
      (build_vocabulary corpus).length ≤ ENCODING_MAX_SIZE_VOCAB + 2 ∧
      List.Sorted (· ≤ ·) pre ∧
      pre.Perm (selectedChars corpus) := by
  have hlen : (List.insertionSort (· ≤ ·) (selectedChars corpus)).length ≤
      ENCODING_MAX_SIZE_VOCAB := by
    rw [(List.perm_insertionSort _ _).length_eq, selectedChars,
      List.length_map, mostCommon]
    exact List.length_take_le _ _
  refine ⟨List.insertionSort (· ≤ ·) (selectedChars corpus), rfl, hlen, ?_,
    List.sorted_insertionSort _ _, List.perm_insertionSort _ _⟩
  rw [build_vocabulary, List.length_append]
  have h2 : ([OOV_CHAR, PAD_CHAR] : List Char).length = 2 := rfl
  omega

theorem statistics_fold (l : List Pair) :
    ∀ a b c : Nat,
      l.foldl (fun (acc : Nat × Nat × Nat) p =>
        (max acc.1 p.1.length, max acc.2.1 p.2.length, acc.2.2 + 1)) (a, b, c) =
      ((l.map (fun p => p.1.length)).foldl max a,
       (l.map (fun p => p.2.length)).foldl max b, c + l.length) := by
  induction l with
  | nil => intro a b c; simp
  | cons p l ih =>
    intro a b c
    simp only [List.foldl_cons, List.map_cons, ih, List.length_cons]
    exact congrArg (Prod.mk _) (congrArg (Prod.mk _) (by omega))

/-- C7: `statistics()` re-initializes the stream (its result is independent of
the current stream position), consumes one full pass, and returns the maximum
x-length, the maximum y-length and the record count over every raw pair, with
no discard filtering; on the toy corpus it returns `(3, 3, 3)`. -/
theorem statistics_spec :
    (∀ (corpus stream0 : List Pair),
      (LazyDataLoader.statistics ⟨corpus, stream0⟩).1 =
        ((corpus.map (fun p => p.1.length)).foldl max 0,
         (corpus.map (fun p => p.2.length)).foldl max 0,
         corpus.length)) ∧
    (LazyDataLoader.ofCorpus (stream_from_file toyCorpus)).statistics.1 =
      (3, 3, 3) := by
  constructor
  · intro corpus stream0
    have h := statistics_fold corpus 0 0 0
    simp only [LazyDataLoader.statistics, h, Nat.zero_add]
  · decide

theorem LazyDataLoader.next_drop (corpus : List Pair) (hne : corpus ≠ []) :
    ∀ m : Nat, m ≤ corpus.length →
      LazyDataLoader.next ⟨corpus, corpus.drop m⟩ =
        (corpus.get? (m % corpus.length)).map
          (fun p => (p, ⟨corpus, corpus.drop (m % corpus.length + 1)⟩)) := by
  intro m hm
  rcases Nat.lt_or_ge m corpus.length with hlt | hge
  · have hmod : m % corpus.length = m := Nat.mod_eq_of_lt hlt
    rw [hmod, List.drop_eq_get_cons hlt, List.get?_eq_get hlt, Option.map_some']
    rfl
  · have hm' : m = corpus.length := Nat.le_antisymm hm hge
    subst hm'
    obtain ⟨q, qs, rfl⟩ : ∃ q qs, corpus = q :: qs := by
      cases corpus with
      | nil => exact absurd rfl hne
      | cons q qs => exact ⟨q, qs, rfl⟩
    rw [List.drop_length, Nat.mod_self]
    rfl

theorem LazyDataLoader.driveNext_drop (corpus : List Pair) (hne : corpus ≠ []) :
    ∀ (k m : Nat), m ≤ corpus.length →
      LazyDataLoader.driveNext ⟨corpus, corpus.drop m⟩ k =
        (corpus.get? ((m + k) % corpus.length)).map
          (fun p => (p, ⟨corpus, corpus.drop ((m + k) % corpus.length + 1)⟩))
  | 0, m, hm => by
    rw [LazyDataLoader.driveNext, next_drop corpus hne m hm]
    simp only [Nat.add_zero]
  | k + 1, m, hm => by
    have hlen : 0 < corpus.length := List.length_pos.2 hne
    have hmod : m % corpus.length < corpus.length := Nat.mod_lt _ hlen
    have hp : corpus.get? (m % corpus.length) =
        some (corpus.get ⟨m % corpus.length, hmod⟩) := List.get?_eq_get hmod
    rw [LazyDataLoader.driveNext, next_drop corpus hne m hm, hp, Option.map_some']
    show LazyDataLoader.driveNext ⟨corpus, corpus.drop (m % corpus.length + 1)⟩ k = _
    rw [driveNext_drop corpus hne k (m % corpus.length + 1) hmod]
    have hidx : (m % corpus.length + 1 + k) % corpus.length =
        (m + (k + 1)) % corpus.length := by
      rw [Nat.add_assoc, Nat.mod_add_mod, Nat.add_comm 1 k]
    rw [hidx]

/-- C5: on a non-empty corpus, `next()` never fails no matter how often it is
driven, and the pairs repeat cyclically: the `k+1`-st call (from a fresh
loader) yields pair `k mod n` of the corpus — so the `n+1`-st call repeats
the 1st. -/
theorem loader_next_cyclic (corpus : List Pair) (hne : corpus ≠ []) (k : Nat) :
    ∃ pr : Pair × LazyDataLoader,
      (LazyDataLoader.ofCorpus corpus).driveNext k = some pr ∧
      corpus.get? (k % corpus.length) = some pr.1 := by
  have hlen : 0 < corpus.length := List.length_pos.2 hne
  have hmod : k % corpus.length < corpus.length := Nat.mod_lt _ hlen
  have h0 : LazyDataLoader.ofCorpus corpus =
      LazyDataLoader.mk corpus (corpus.drop 0) := by
    rw [List.drop_zero]
    rfl
  rw [h0, LazyDataLoader.driveNext_drop corpus hne k 0 (Nat.zero_le _)]
  simp only [Nat.zero_add, List.get?_eq_get hmod, Option.map_some']
  exact ⟨_, rfl, rfl⟩

theorem loader_next_cyclic_witness :
    (stream_from_file toyCorpus ≠ []) ∧
    ∃ pr : Pair × LazyDataLoader,
      (LazyDataLoader.ofCorpus (stream_from_file toyCorpus)).driveNext 3 =
        some pr ∧
      (stream_from_file toyCorpus).get?
        (3 % (stream_from_file toyCorpus).length) = some pr.1 :=
  ⟨by decide, loader_next_cyclic (stream_from_file toyCorpus) (by decide) 3⟩

/-! ### Counter keys and the dict built by `Batcher.write` -/

theorem counterAdd_keys_nodup {m : Counter} {c : Char}
    (h : (m.map Prod.fst).Nodup) : ((counterAdd m c).map Prod.fst).Nodup := by
  rw [counterAdd]
  split_ifs with hc
  · rw [List.map_map]
    have he : (Prod.fst ∘ fun p : Char × Nat =>
        if p.1 = c then (p.1, p.2 + 1) else p) = Prod.fst := by
      funext p
      by_cases hp : p.1 = c <;> simp [Function.comp, hp]
    rw [he]
    exact h
  · rw [List.map_append]
    rw [List.nodup_append]
    refine ⟨h, List.nodup_singleton _, fun a ha hb => ?_⟩
    have hac : a = c := by simpa using hb
    subst hac
    obtain ⟨p, hp, hpa⟩ := List.mem_map.1 ha
    exact absurd (List.any_eq_true.2 ⟨p, hp, decide_eq_true hpa⟩) hc

theorem mem_keys_counterAdd {m : Counter} {c k : Char}
    (h : k ∈ (counterAdd m c).map Prod.fst) : k ∈ m.map Prod.fst ∨ k = c := by
  rw [counterAdd] at h
  split_ifs at h with hc
  · rw [List.map_map] at h
    have he : (Prod.fst ∘ fun p : Char × Nat =>
        if p.1 = c then (p.1, p.2 + 1) else p) = Prod.fst := by
      funext p
      by_cases hp : p.1 = c <;> simp [Function.comp, hp]
    rw [he] at h
    exact Or.inl h
  · rw [List.map_append] at h
    rcases List.mem_append.1 h with h1 | h1
    · exact Or.inl h1
    · exact Or.inr (by simpa using h1)

theorem foldl_counterAdd_keys_nodup :
    ∀ (cs : Str) (m : Counter), (m.map Prod.fst).Nodup →
      ((cs.foldl counterAdd m).map Prod.fst).Nodup
  | [], _, h => h
  | c :: cs, m, h =>
    foldl_counterAdd_keys_nodup cs (counterAdd m c) (counterAdd_keys_nodup h)

theorem mem_keys_foldl_counterAdd :
    ∀ (cs : Str) (m : Counter) (k : Char),
      k ∈ ((cs.foldl counterAdd m).map Prod.fst) → k ∈ m.map Prod.fst ∨ k ∈ cs
  | [], _, _, h => Or.inl h
  | c :: cs, m, k, h => by
    rcases mem_keys_foldl_counterAdd cs (counterAdd m c) k h with h1 | h1
    · rcases mem_keys_counterAdd h1 with h2 | h2
      · exact Or.inl h2
      · exact Or.inr (h2 ▸ List.mem_cons_self c cs)
    · exact Or.inr (List.mem_cons_of_mem c h1)

theorem not_mem_of_discard_false {p : Str} (h : discard_password p = false) :
    PAD_CHAR ∉ p := by
  intro hm
  rw [discard_password, Bool.or_eq_false_iff] at h
  have h2 : List.elem ' ' p = false := h.2
  have h3 : List.elem ' ' p = true := List.elem_eq_true_of_mem hm
  rw [h2] at h3
  exact Bool.noConfusion h3

theorem vocabularyCounter_keys_nodup (corpus : List Record) :
    ((vocabularyCounter corpus).map Prod.fst).Nodup := by
  rw [vocabularyCounter]
  suffices h : ∀ (l : List Record) (m : Counter), (m.map Prod.fst).Nodup →
      ((l.foldl (fun acc r =>
        if discard_password r.y || discard_password r.x then acc
        else (r.y ++ r.x).foldl counterAdd acc) m).map Prod.fst).Nodup by
    exact h corpus [] (List.nodup_nil)
  intro l
  induction l with
  | nil => exact fun m hm => hm
  | cons r l ih =>
    intro m hm
    rw [List.foldl_cons]
    by_cases hd : (discard_password r.y || discard_password r.x) = true
    · rw [if_pos hd]
      exact ih m hm
    · rw [if_neg hd]
      exact ih _ (foldl_counterAdd_keys_nodup _ m hm)

theorem vocabularyCounter_pad_not_key (corpus : List Record) :
    PAD_CHAR ∉ (vocabularyCounter corpus).map Prod.fst := by
  rw [vocabularyCounter]
  suffices h : ∀ (l : List Record) (m : Counter), PAD_CHAR ∉ m.map Prod.fst →
      PAD_CHAR ∉ ((l.foldl (fun acc r =>
        if discard_password r.y || discard_password r.x then acc
        else (r.y ++ r.x).foldl counterAdd acc) m).map Prod.fst) by
    exact h corpus [] (by simp)
  intro l
  induction l with
  | nil => exact fun m hm => hm
  | cons r l ih =>
    intro m hm
    rw [List.foldl_cons]
    by_cases hd : (discard_password r.y || discard_password r.x) = true
    · rw [if_pos hd]
      exact ih m hm
    · rw [if_neg hd]
      refine ih _ (fun hmem => ?_)
      rcases mem_keys_foldl_counterAdd _ m PAD_CHAR hmem with h1 | h1
      · exact hm h1
      · rw [Bool.not_eq_true, Bool.or_eq_false_iff] at hd
        rcases List.mem_append.1 h1 with h2 | h2
        · exact not_mem_of_discard_false hd.1 h2
        · exact not_mem_of_discard_false hd.2 h2

theorem selectedChars_nodup (corpus : List Record) :
    (selectedChars corpus).Nodup := by
  rw [selectedChars, mostCommon, List.map_take]
  refine List.Nodup.sublist (List.take_sublist _ _) ?_
  exact ((List.perm_insertionSort _ _).map Prod.fst).nodup_iff.2
    (vocabularyCounter_keys_nodup corpus)

theorem pad_not_mem_selectedChars (corpus : List Record) :
    PAD_CHAR ∉ selectedChars corpus := by
  intro h
  apply vocabularyCounter_pad_not_key corpus
  rw [selectedChars, mostCommon, List.map_take] at h
  exact ((List.perm_insertionSort _ _).map Prod.fst).mem_iff.1
    (List.take_subset _ _ h)

theorem build_vocabulary_nodup (corpus : List Record)
    (h : OOV_CHAR ∉ selectedChars corpus) : (build_vocabulary corpus).Nodup := by
  rw [build_vocabulary, List.nodup_append]
  refine ⟨(List.perm_insertionSort _ _).nodup_iff.2 (selectedChars_nodup corpus),
    by decide, fun a ha hb => ?_⟩
  have ha' : a ∈ selectedChars corpus := (List.perm_insertionSort _ _).mem_iff.1 ha
  rcases List.mem_cons.1 hb with rfl | hb1
  · exact h ha'
  · have : a = PAD_CHAR := by simpa using hb1
    exact pad_not_mem_selectedChars corpus (this ▸ ha')

theorem dictOfPairs_go_eq_append {κ β : Type} [DecidableEq κ] :
    ∀ (ps m : List (κ × β)), ((m ++ ps).map Prod.fst).Nodup →
      ps.foldl (fun acc p => dictInsert acc p.1 p.2) m = m ++ ps
  | [], m, _ => by simp
  | p :: ps, m, h => by
    have hkeys := h
    rw [List.map_append, List.map_cons, List.nodup_append] at hkeys
    have hnotin : p.1 ∉ m.map Prod.fst := fun hmem =>
      hkeys.2.2 hmem (List.mem_cons_self _ _)
    have hany : m.any (fun q => q.1 = p.1) = false := by
      rw [List.any_eq_false]
      intro q hq
      simp only [decide_eq_true_eq]
      intro hqp
      exact hnotin (List.mem_map.2 ⟨q, hq, hqp⟩)
    rw [List.foldl_cons]
    have hins : dictInsert m p.1 p.2 = m ++ [p] := by
      rw [dictInsert, if_neg (by rw [hany]; exact Bool.false_ne_true)]
    rw [hins, dictOfPairs_go_eq_append ps (m ++ [p])
      (by rwa [List.append_assoc, List.singleton_append]), List.append_assoc,
      List.singleton_append]

theorem dictOfPairs_eq_self {κ β : Type} [DecidableEq κ]
    {ps : List (κ × β)} (h : (ps.map Prod.fst).Nodup) : dictOfPairs ps = ps :=
  dictOfPairs_go_eq_append ps [] (by simpa using h)

theorem token_indices_eq_enum (v : List Char) : token_indices v = v.enum := by
  rw [token_indices]
  refine dictOfPairs_eq_self ?_
  rw [List.enum_map_fst]
  exact List.nodup_range _

theorem indices_token_eq_swap_enum {v : List Char} (h : v.Nodup) :
    indices_token v = v.enum.map (fun p => (p.2, p.1)) := by
  rw [indices_token]
  refine dictOfPairs_eq_self ?_
  rw [List.map_map]
  have he : (Prod.fst ∘ fun p : Nat × Char => (p.2, p.1)) = Prod.snd := rfl
  rw [he, List.enum_map_snd]
  exact h

theorem writeAssert_of_nodup {v : List Char} (h : v.Nodup) :
    writeAssertHolds v := by
  rw [writeAssertHolds, token_indices_eq_enum, indices_token_eq_swap_enum h,
    List.length_map]

/-- C6 is false as stated: on the one-line corpus `id\t？\t？` the OOV
character `'？'` is itself the most frequent corpus character, so the
vocabulary list holds it twice and the `assert` in `Batcher.write` fails
(3 index→token entries vs 2 token→index entries). -/
theorem vocab_dup_cex :
    build_vocabulary [⟨"id".data, "？".data, "？".data⟩] = ['？', '？', ' '] ∧
    ¬ (build_vocabulary [⟨"id".data, "？".data, "？".data⟩]).Nodup ∧
    ¬ writeAssertHolds (build_vocabulary [⟨"id".data, "？".data, "？".data⟩]) := by
  refine ⟨by decide, by decide, ?_⟩
  rw [writeAssertHolds]
  decide

/-- C6 (amended): for every corpus whose selected top-frequency characters do
not include the OOV character `'？'` (the pad character `' '` can never be
selected, since space-containing fields are discarded before counting), the
vocabulary list has no duplicates and the assertion in `Batcher.write`
holds. -/
theorem vocab_nodup_amended (corpus : List Record)
    (h : OOV_CHAR ∉ selectedChars corpus) :
    (build_vocabulary corpus).Nodup ∧
    writeAssertHolds (build_vocabulary corpus) :=
  ⟨build_vocabulary_nodup corpus h,
   writeAssert_of_nodup (build_vocabulary_nodup corpus h)⟩

theorem vocab_nodup_amended_witness :
    OOV_CHAR ∉ selectedChars [⟨"id".data, "ab".data, "cd".data⟩] ∧
    ((build_vocabulary [⟨"id".data, "ab".data, "cd".data⟩]).Nodup ∧
      writeAssertHolds (build_vocabulary [⟨"id".data, "ab".data, "cd".data⟩])) :=
  ⟨by decide, vocab_nodup_amended [⟨"id".data, "ab".data, "cd".data⟩] (by decide)⟩

/-! ### The persisted index assignment versus the rebuilt table's -/

theorem find?_swap_enumFrom :
    ∀ (v : List Char) (n : Nat) (c : Char), c ∈ v →
      ((v.enumFrom n).map (fun p : Nat × Char => (p.2, p.1))).find?
          (fun p => p.1 = c) = some (c, n + v.indexOf c)
  | [], _, c, hc => absurd hc (List.not_mem_nil c)
  | a :: w, n, c, hc => by
    rw [List.enumFrom_cons, List.map_cons]
    by_cases hca : a = c
    · subst hca
      rw [List.find?_cons_of_pos _ (by simp), List.indexOf_cons_self,
        Nat.add_zero]
    · have hcw : c ∈ w := by
        rcases List.mem_cons.1 hc with h1 | h1
        · exact absurd h1.symm hca
        · exact h1
      rw [List.find?_cons_of_neg _ (by simp [hca]),
        find?_swap_enumFrom w (n + 1) c hcw, List.indexOf_cons_ne _ hca]
      exact congrArg some (congrArg (Prod.mk c) (by omega))

theorem find?_swap_enum (v : List Char) (c : Char) (hc : c ∈ v) :
    (v.enum.map (fun p : Nat × Char => (p.2, p.1))).find?
        (fun p => p.1 = c) = some (c, v.indexOf c) := by
  rw [List.enum_eq_enumFrom, find?_swap_enumFrom v 0 c hc, Nat.zero_add]

theorem dictLookup_indices_token {v : List Char} (hv : v.Nodup) {c : Char}
    (hc : c ∈ v) : dictLookup (indices_token v) c = some (v.indexOf c) := by
  rw [dictLookup, indices_token_eq_swap_enum hv, find?_swap_enum v c hc,
    Option.map_some']

theorem get_chars_and_ctable_snd (v : List Char) :
    (get_chars_and_ctable v).2 = CharacterTable.ofChars v := by
  show CharacterTable.ofChars ((token_indices v).map Prod.snd) = _
  rw [token_indices_eq_enum, List.enum_map_snd]

/-- In a sorted character list containing both sentinels, the pad character
(space) sits strictly before the OOV character (U+FF1F). -/
theorem indexOf_pad_lt_oov {L : Str} (hsorted : List.Sorted (· ≤ ·) L)
    (hpadc : PAD_CHAR ∈ L) (hoovc : OOV_CHAR ∈ L) :
    L.indexOf PAD_CHAR < L.indexOf OOV_CHAR ∧
    L.indexOf OOV_CHAR < L.length := by
  have hip : L.indexOf PAD_CHAR < L.length := List.indexOf_lt_length.2 hpadc
  have hio : L.indexOf OOV_CHAR < L.length := List.indexOf_lt_length.2 hoovc
  refine ⟨?_, hio⟩
  have hne : L.indexOf PAD_CHAR ≠ L.indexOf OOV_CHAR := by
    intro he
    have hfin : (⟨L.indexOf PAD_CHAR, hip⟩ : Fin L.length) =
        ⟨L.indexOf OOV_CHAR, hio⟩ := Fin.ext he
    have hpo : PAD_CHAR = OOV_CHAR :=
      (List.indexOf_get hip).symm.trans
        ((congrArg L.get hfin).trans (List.indexOf_get hio))
    exact absurd hpo (by decide)
  rcases Nat.lt_or_ge (L.indexOf PAD_CHAR) (L.indexOf OOV_CHAR) with h1 | h1
  · exact h1
  · have hgt : L.indexOf OOV_CHAR < L.indexOf PAD_CHAR :=
      Nat.lt_of_le_of_ne h1 (fun he => hne he.symm)
    have hle := hsorted.rel_get_of_lt
      (a := ⟨_, hio⟩) (b := ⟨_, hip⟩) (Fin.mk_lt_mk.2 hgt)
    rw [List.indexOf_get hio, List.indexOf_get hip] at hle
    exact absurd hle (by decide)

/-- C4 is false as stated: on the one-line corpus `id\tb\tb` the persisted
vocabulary is `['b', '？', ' ']`, whose persisted token→index mapping sends
`'b'` to 0, while the table rebuilt from the mapping's values re-sorts the
characters (to `[' ', 'b', '？']`) and sends `'b'` to 1. -/
theorem index_parity_cex :
    build_vocabulary [⟨"id".data, "b".data, "b".data⟩] = ['b', '？', ' '] ∧
    dictLookup (indices_token
      (build_vocabulary [⟨"id".data, "b".data, "b".data⟩])) 'b' = some 0 ∧
    (get_chars_and_ctable
      (build_vocabulary [⟨"id".data, "b".data, "b".data⟩])).2.char_indices 'b'
      = some 1 ∧ (0 : Nat) ≠ 1 := by decide

/-- C4 (amended): the table `get_chars_and_ctable` rebuilds from the persisted
mapping's values covers exactly the persisted character set, but the two index
assignments do **not** coincide: for every corpus whose selected characters
exclude the OOV sentinel (so the persisted vocabulary is duplicate-free), the
persisted mapping assigns the pad character the last index `|v| − 1`, while
the rebuilt table — which re-sorts the characters, whereas the persisted list
has the sentinels appended after the sorted prefix — assigns it a strictly
smaller index. -/
theorem index_parity_amended (corpus : List Record)
    (h : OOV_CHAR ∉ selectedChars corpus) :
    ((get_chars_and_ctable (build_vocabulary corpus)).2.chars).Perm
        (build_vocabulary corpus) ∧
    dictLookup (indices_token (build_vocabulary corpus)) PAD_CHAR =
      some ((build_vocabulary corpus).length - 1) ∧
    ∃ k, (get_chars_and_ctable (build_vocabulary corpus)).2.char_indices
        PAD_CHAR = some k ∧
      k < (build_vocabulary corpus).length - 1 := by
  have hnd : (build_vocabulary corpus).Nodup := build_vocabulary_nodup corpus h
  have hpadv : PAD_CHAR ∈ build_vocabulary corpus := by
    rw [build_vocabulary]
    exact List.mem_append_right _ (by decide)
  have hoovv : OOV_CHAR ∈ build_vocabulary corpus := by
    rw [build_vocabulary]
    exact List.mem_append_right _ (by decide)
  have htab : (get_chars_and_ctable (build_vocabulary corpus)).2 =
      CharacterTable.ofChars (build_vocabulary corpus) :=
    get_chars_and_ctable_snd _
  have hchars : (CharacterTable.ofChars (build_vocabulary corpus)).chars =
      List.insertionSort (· ≤ ·) (build_vocabulary corpus) := by
    show List.insertionSort (· ≤ ·) (build_vocabulary corpus).dedup = _
    rw [List.dedup_eq_self.2 hnd]
  refine ⟨?_, ?_, ?_⟩
  · rw [htab, hchars]
    exact List.perm_insertionSort _ _
  · rw [dictLookup_indices_token hnd hpadv]
    have hnp : PAD_CHAR ∉ List.insertionSort (· ≤ ·) (selectedChars corpus) :=
      fun hmem => pad_not_mem_selectedChars corpus
        ((List.perm_insertionSort _ _).mem_iff.1 hmem)
    have hidx : (build_vocabulary corpus).indexOf PAD_CHAR =
        (build_vocabulary corpus).length - 1 := by
      rw [build_vocabulary, List.indexOf_append_of_not_mem hnp,
        List.length_append]
      have h1 : List.indexOf PAD_CHAR [OOV_CHAR, PAD_CHAR] = 1 := by decide
      have h2 : ([OOV_CHAR, PAD_CHAR] : List Char).length = 2 := rfl
      rw [h1, h2]
      omega
    rw [hidx]
  · rw [htab]
    have hpadc : PAD_CHAR ∈
        (CharacterTable.ofChars (build_vocabulary corpus)).chars :=
      CharacterTable.mem_chars_ofChars.2 hpadv
    have hoovc : OOV_CHAR ∈
        (CharacterTable.ofChars (build_vocabulary corpus)).chars :=
      CharacterTable.mem_chars_ofChars.2 hoovv
    refine ⟨_, CharacterTable.char_indices_of_mem hpadc, ?_⟩
    have hkey := indexOf_pad_lt_oov
      (CharacterTable.chars_ofChars_sorted (build_vocabulary corpus)) hpadc hoovc
    have hlen : (CharacterTable.ofChars (build_vocabulary corpus)).chars.length =
        (build_vocabulary corpus).length := by
      rw [hchars]
      exact (List.perm_insertionSort _ _).length_eq
    omega

theorem index_parity_amended_witness :
    OOV_CHAR ∉ selectedChars [⟨"id".data, "a".data, "b".data⟩] ∧
    (((get_chars_and_ctable
        (build_vocabulary [⟨"id".data, "a".data, "b".data⟩])).2.chars).Perm
          (build_vocabulary [⟨"id".data, "a".data, "b".data⟩]) ∧
      dictLookup (indices_token
        (build_vocabulary [⟨"id".data, "a".data, "b".data⟩])) PAD_CHAR =
          some ((build_vocabulary [⟨"id".data, "a".data, "b".data⟩]).length - 1) ∧
      ∃ k, (get_chars_and_ctable
          (build_vocabulary [⟨"id".data, "a".data, "b".data⟩])).2.char_indices
            PAD_CHAR = some k ∧
        k < (build_vocabulary [⟨"id".data, "a".data, "b".data⟩]).length - 1) :=
  ⟨by decide, index_parity_amended [⟨"id".data, "a".data, "b".data⟩] (by decide)⟩
